import Mathlib

/-!
Verification of the excel2erp extraction engine (Python sources
`src/model.py`, `src/excel.py`, `src/engine.py`) against its
natural-language specification.

The Python code is shallowly embedded:

* Python `dict[str, str]` values are modelled as association lists
  (`List (String × String)`) together with operations `dget`, `dinsert`,
  `dictOf` and `pyUpdate` that reproduce CPython's insertion-ordered
  dictionary semantics (assignment updates an existing key in place,
  otherwise appends; lookups return the stored value).
* Worksheets are modelled as finite grids (`List (List CellValue)`),
  addressed 1-based as in openpyxl; cells outside the grid read as empty,
  which is how openpyxl presents untouched cells to the reader.
* Regular-expression substitution (`re.sub`) is modelled by `re_sub`, a
  matcher for exactly the pattern subset exercised by the engine and its
  configuration: a leading `^` anchor, literal characters, the classes
  `\d`/`\D`, and `+` repetition of a single atom, over ASCII text.
* Fallible Python code (raising `ValueError`) is modelled with `Except`.
-/

namespace Excel2Erp

/-! ## Python dict model -/

def dget (m : List (String × String)) (k : String) : Option String :=
  (m.find? (fun p => p.1 == k)).map (fun p => p.2)

def dinsert (m : List (String × String)) (k v : String) : List (String × String) :=
  if m.any (fun p => p.1 == k) then
    m.map (fun p => if p.1 == k then (p.1, v) else p)
  else
    m ++ [(k, v)]

def pyUpdate (m : List (String × String)) (xs : List (String × String)) :
    List (String × String) :=
  xs.foldl (fun acc p => dinsert acc p.1 p.2) m

def dictOf (xs : List (String × String)) : List (String × String) :=
  pyUpdate [] xs

def dlast (xs : List (String × String)) (k : String) : Option String :=
  (xs.reverse.find? (fun p => p.1 == k)).map (fun p => p.2)

/-! ## Character helpers (ASCII, matching the regex classes the code uses) -/

/-- ASCII letter, the class `[A-Za-z]` of `parse_cell_address`. -/
def isAsciiLetter (c : Char) : Bool :=
  (65 ≤ c.toNat && c.toNat ≤ 90) || (97 ≤ c.toNat && c.toNat ≤ 122)

/-- ASCII digit, the class `\d` (the code only ever feeds ASCII text). -/
def isDigitChar (c : Char) : Bool :=
  48 ≤ c.toNat && c.toNat ≤ 57

/-- Word character, the class `\w` of the `${...}` placeholder regex. -/
def isWordChar (c : Char) : Bool :=
  isAsciiLetter c || isDigitChar c || c = '_'

/-- Python `str.strip()` whitespace set. -/
def pyIsSpace (c : Char) : Bool :=
  c = ' ' || c = '\t' || c = '\n' || c = '\r' || c = '\x0b' || c = '\x0c'

/-- `not s.strip()`: the string is empty or whitespace-only. -/
def isBlank (s : String) : Bool :=
  s.data.all pyIsSpace

/-- Python `str.rstrip()`: drop trailing whitespace. -/
def rstrip (s : String) : String :=
  String.mk ((s.data.reverse.dropWhile pyIsSpace).reverse)

/-- `ord(c.upper()) - ord("A") + 1` for an ASCII letter `c`: the 1-based
value of one column letter (A=1 .. Z=26), case-insensitive. -/
def letterVal (c : Char) : Nat :=
  if 97 ≤ c.toNat then c.toNat - 96 else c.toNat - 64

/-- Decimal digit value of an ASCII digit. -/
def digitVal (c : Char) : Nat :=
  c.toNat - 48

/-! ## excel.py: cell values and `cell_to_string` -/

/-- A worksheet cell value as `cell_to_string` distinguishes them:
`empty` is a `None` cell, `date` is a `datetime`/`date` (year, month, day),
`num` is an `int` or a whole-valued `float` (which Python renders without
the trailing `.0`), and `str` is any other value via `str(value)`
(including the rendering of a non-whole float). -/
inductive CellValue where
  | empty
  | str (s : String)
  | num (n : Int)
  | date (y m d : Nat)
deriving DecidableEq, Repr

/-- Zero-pad a number to `w` digits, as `strftime` does for `%Y`/`%m`/`%d`. -/
def padNat (w n : Nat) : String :=
  String.mk (List.replicate (w - (toString n).length) '0') ++ toString n

/-- `cell_to_string`: normalize a cell value to its canonical string.
`None` becomes `""`, dates become `YYYYMMDD`, whole numbers print without
a decimal point, everything else is its `str(...)` form. -/
def cell_to_string : CellValue → String
  | .empty => ""
  | .str s => s
  | .num n => toString n
  | .date y m d => padNat 4 y ++ padNat 2 m ++ padNat 2 d

/-! ## excel.py: `parse_cell_address` -/

/-- Column letters decoded as base-26 with digit values A=1..Z=26:
`col = col * 26 + (ord(c.upper()) - ord("A") + 1)` over the letters. -/
def colValue (letters : List Char) : Nat :=
  letters.foldl (fun acc c => acc * 26 + letterVal c) 0

/-- `int(row_str)`: decimal value of a digit string. -/
def digitsVal (digits : List Char) : Nat :=
  digits.foldl (fun acc c => acc * 10 + digitVal c) 0

/-- `parse_cell_address`: `re.match(r"([A-Za-z]+)(\d+)", address)` anchors
at the start of the string only, so the match succeeds iff the string
begins with one or more letters immediately followed by one or more
digits; whatever follows the (greedy) digit run is ignored. On success
return the 1-based `(row, column)` pair, else the `ValueError` message. -/
def parse_cell_address (address : String) : Except String (Nat × Nat) :=
  let letters := address.data.takeWhile isAsciiLetter
  let rest := address.data.dropWhile isAsciiLetter
  let digits := rest.takeWhile isDigitChar
  if letters.isEmpty || digits.isEmpty then
    Except.error ("Invalid cell address: " ++ address)
  else
    Except.ok (digitsVal digits, colValue letters)

/-! ## Configuration model (model.py) -/

/-- `SourceProperty`: one extracted field. `replacements` is the ordered
sequence of (pattern, replacement) pairs; Python stores it as an
insertion-ordered dict, which an ordered list models exactly. -/
structure SourceProperty where
  name : String
  locator : String
  replacements : List (String × String) := []
deriving Repr, DecidableEq

/-- `DetailConfig`: where the detail table lives and how to map it. -/
structure DetailConfig where
  locator : String
  properties : List SourceProperty
  end_value : Option String := none
deriving Repr

/-- `Source`: one vendor's extraction profile. -/
structure Source where
  name : String
  description : String
  sheet_index : Nat
  header : List SourceProperty
  detail : DetailConfig
  logo : Option String := none
  default_values : List (String × String) := []
deriving Repr

/-- `ResultProperty`: one output column. `prompt` defaults to `name` at
construction time (`__post_init__`); the engine never reads `prompt`. -/
structure ResultProperty where
  name : String
  type : String := "text"
  prompt : Option String := none
  default_value : Option String := none
deriving Repr, DecidableEq

/-- `FileSpec`: one output file. -/
structure FileSpec where
  filename : String
  properties : List ResultProperty
  prolog : String := ""
  epilog : String := ""
deriving Repr

/-- `FileSpec.default_values`: the dict comprehension
`{p.name: p.default_value for p in self.properties if p.default_value}` —
a property contributes iff its default value is truthy, i.e. neither
`None` nor the empty string. -/
def FileSpec.default_values (fs : FileSpec) : List (String × String) :=
  dictOf (fs.properties.filterMap (fun p =>
    match p.default_value with
    | none => none
    | some d => if d = "" then none else some (p.name, d)))

/-- `ResultConfig`: output format configuration. -/
structure ResultConfig where
  separator : String
  base_name : String
  header : FileSpec
  detail : FileSpec
deriving Repr

/-! ## excel.py: `read_table`

A worksheet is a finite grid of cell values, addressed 1-based like
openpyxl. Reading any cell outside the stored grid yields an empty cell,
which is what openpyxl's `sheet.cell(row, col)` reports for untouched
coordinates; the Python `while True` loops therefore always stop within
the grid bounds, and translating them as recursion over the remaining
finite cells is exact. -/

/-- A worksheet: a list of rows, each a list of cell values. -/
abbrev Sheet : Type := List (List CellValue)

/-- `sheet.cell(row, col).value` with 1-based `row`, `col`. -/
def cellAt (sheet : Sheet) (r c : Nat) : CellValue :=
  (sheet.getD (r - 1) []).getD (c - 1) CellValue.empty

/-- Phase 1 of `read_table`: scan rightward along the header-row cells,
collecting `cell_to_string` values (verbatim, untrimmed) until a cell
whose value is empty or whitespace-only. -/
def readHeaders : List CellValue → List String
  | [] => []
  | c :: rest =>
    let val := cell_to_string c
    if isBlank val then [] else val :: readHeaders rest

/-- Phase 2 of `read_table`: scan down the data rows. Stop (excluding the
row) when the first column is blank or — with a truthy `end_value`
sentinel — equal to the sentinel; otherwise emit the row's dict mapping
each header to the corresponding column's normalized value. -/
def readDataRows (headers : List String) (startCol : Nat)
    (endValue : Option String) : List (List CellValue) → List (List (String × String))
  | [] => []
  | r :: rest =>
    let firstCell := cell_to_string (r.getD (startCol - 1) CellValue.empty)
    let hitSentinel :=
      match endValue with
      | some ev => decide (ev ≠ "" ∧ firstCell = ev)
      | none => false
    if isBlank firstCell || hitSentinel then []
    else
      dictOf (headers.enum.map (fun p =>
          (p.2, cell_to_string (r.getD (startCol - 1 + p.1) CellValue.empty))))
        :: readDataRows headers startCol endValue rest

/-- `read_table`: read the header row rightward from `start_address`,
return `[]` when no headers are found, else read data rows downward from
the next row until a stop condition. -/
def read_table (sheet : Sheet) (start_address : String)
    (end_value : Option String) : Except String (List (List (String × String))) :=
  match parse_cell_address start_address with
  | .error e => .error e
  | .ok (start_row, start_col) =>
    let headers := readHeaders
      ((sheet.getD (start_row - 1) []).drop (start_col - 1))
    if headers.isEmpty then .ok []
    else .ok (readDataRows headers start_col end_value (sheet.drop start_row))

/-! ## engine.py: regular-expression substitution (`re.sub`)

The engine uses `re.sub` for the configured replacement chains. The
patterns that reach it are built from a leading `^` anchor, literal
characters, the classes `\d` and `\D`, and `+` repetition of the
preceding single atom; `re_sub` below implements global substitution for
exactly that subset (greedy, which coincides with Python here because an
atom and its successor never overlap in these patterns). -/

/-- A single-character regex atom. -/
inductive RAtom where
  | lit (c : Char)
  | anyDigit
  | notDigit
deriving Repr, DecidableEq

/-- An atom, or an atom under greedy `+` repetition. -/
inductive RTok where
  | once (a : RAtom)
  | plus (a : RAtom)
deriving Repr, DecidableEq

/-- Does atom `a` match character `c`? -/
def matchAtom (a : RAtom) (c : Char) : Bool :=
  match a with
  | .lit ch => c = ch
  | .anyDigit => isDigitChar c
  | .notDigit => !isDigitChar c

/-- Parse the body of a pattern (after any `^`) into tokens. -/
def parseToks : List Char → List RTok
  | [] => []
  | '\\' :: c :: '+' :: rest =>
    RTok.plus (if c = 'd' then .anyDigit else if c = 'D' then .notDigit else .lit c)
      :: parseToks rest
  | '\\' :: c :: rest =>
    RTok.once (if c = 'd' then .anyDigit else if c = 'D' then .notDigit else .lit c)
      :: parseToks rest
  | c :: '+' :: rest => RTok.plus (.lit c) :: parseToks rest
  | c :: rest => RTok.once (.lit c) :: parseToks rest

/-- Match a token sequence at the head of `cs`; on success return the
unconsumed suffix. `plus` is greedy. -/
def tryMatch : List RTok → List Char → Option (List Char)
  | [], cs => some cs
  | RTok.once a :: ts, cs =>
    match cs with
    | [] => none
    | c :: rest => if matchAtom a c then tryMatch ts rest else none
  | RTok.plus a :: ts, cs =>
    let run := cs.takeWhile (matchAtom a)
    if run.isEmpty then none else tryMatch ts (cs.drop run.length)

/-- Global (unanchored) scan-and-substitute, the body of `re.sub` for an
unanchored pattern: at each position try a match; on a non-empty match
emit the replacement and continue after it, on an empty match emit the
replacement plus the current character and advance one position (CPython
behaviour), otherwise emit the character and advance. The loop consumes
at least one character per step, so fuel `cs.length + 1` is always
enough; `re_sub` passes exactly that. -/
def scanSub (toks : List RTok) (repl : List Char) : Nat → List Char → List Char
  | _, [] =>
    match tryMatch toks [] with
    | some _ => repl
    | none => []
  | 0, cs => cs
  | fuel + 1, c :: cs =>
    match tryMatch toks (c :: cs) with
    | some rest =>
      if rest.length < cs.length + 1 then repl ++ scanSub toks repl fuel rest
      else repl ++ c :: scanSub toks repl fuel cs
    | none => c :: scanSub toks repl fuel cs

/-- `re.sub(pattern, replacement, s)` for the pattern subset above: a
pattern starting with `^` can only match at the start of the string
(no MULTILINE flag), so it substitutes at most once; any other pattern is
substituted globally. -/
def re_sub (pattern replacement s : String) : String :=
  match pattern.data with
  | '^' :: body =>
    match tryMatch (parseToks body) s.data with
    | some rest => String.mk (replacement.data ++ rest)
    | none => s
  | body => String.mk (scanSub (parseToks body) replacement.data (s.data.length + 1) s.data)

/-! ## engine.py: `apply_replacements` -/

/-- `apply_replacements`: fold the property's (pattern, replacement)
pairs over the value in configuration order, each step a global regex
substitution on the previous step's output. -/
def apply_replacements (value : String) (prop : SourceProperty) : String :=
  prop.replacements.foldl (fun result pr => re_sub pr.1 pr.2 result) value

/-! ## engine.py: `expand`

`re.sub(r"\$\{(\w+)\}", lambda m: str(props.get(m.group(1), "")), template)`
is a single left-to-right scan: at a literal `${`, a non-empty run of
word characters, and a closing brace, the whole occurrence is replaced by
the looked-up value (empty string when the key is absent); everything
else passes through, and replaced text is never rescanned. -/

/-- After a `${`, try to read `ident}`: the word characters up to a
closing brace. Returns the identifier and the suffix after the brace. -/
def scanIdent : List Char → Option (List Char × List Char)
  | [] => none
  | '}' :: rest => some ([], rest)
  | c :: rest =>
    if isWordChar c then (scanIdent rest).map (fun p => (c :: p.1, p.2))
    else none

/-- One pass over the template characters: substitute each well-formed
`${ident}` occurrence, copy everything else. The scan consumes at least
one character per step, so fuel `cs.length + 1` is always enough;
`expand` passes exactly that. -/
def expandAux (props : List (String × String)) : Nat → List Char → List Char
  | _, [] => []
  | 0, cs => cs
  | fuel + 1, '$' :: '{' :: rest =>
    match scanIdent rest with
    | some (ident, rest2) =>
      if ident.isEmpty then '$' :: '{' :: expandAux props fuel rest
      else ((dget props (String.mk ident)).getD "").data ++ expandAux props fuel rest2
    | none => '$' :: '{' :: expandAux props fuel rest
  | fuel + 1, c :: rest => c :: expandAux props fuel rest

/-- `expand(template, props)`. -/
def expand (template : String) (props : List (String × String)) : String :=
  String.mk (expandAux props (template.data.length + 1) template.data)

/-! ## engine.py: `extract_header` and `missing_properties` -/

/-- `extract_header`: start from the result-level defaults, overlay the
source-level defaults, then extract each configured header property into
the dict (later writes overwrite earlier ones). A bad locator raises. -/
def extract_header (sheet : Sheet) (source : Source) (result_header : FileSpec) :
    Except String (List (String × String)) :=
  source.header.foldlM
    (fun data prop =>
      match parse_cell_address prop.locator with
      | .error e => .error e
      | .ok rc =>
        .ok (dinsert data prop.name
          (apply_replacements (cell_to_string (cellAt sheet rc.1 rc.2)) prop)))
    (pyUpdate result_header.default_values source.default_values)

/-- `missing_properties`: the result-header properties whose name is
neither extracted (named by some `source.header` property) nor defaulted
(a key of `source.default_values` or of the result header's derived
default values), in result-header property order. -/
def missing_properties (source : Source) (result_header : FileSpec) :
    List ResultProperty :=
  result_header.properties.filter (fun p =>
    !((source.header.map (fun q => q.name)).contains p.name) &&
    !((source.default_values.map Prod.fst ++
       result_header.default_values.map Prod.fst).contains p.name))

/-! ## engine.py: `generate_content` -/

/-- Python's `a or b` on strings: `a` unless it is falsy (empty). -/
def pyOr (a b : String) : String :=
  if a = "" then b else a

/-- `"${" in value`. -/
def hasDollarBrace : List Char → Bool
  | [] => false
  | '$' :: '{' :: _ => true
  | _ :: rest => hasDollarBrace rest

/-- `generate_content`: optional right-stripped prolog line, one line per
record — fields in `spec.properties` order, each resolved as
`record.get(name) or default_value or ""` and template-expanded against
the record plus a 0-based `index` when it contains `${` — then an
optional right-stripped epilog line, all joined by newlines. -/
def generate_content (spec : FileSpec) (separator : String)
    (records : List (List (String × String))) : String :=
  let prologLines := if spec.prolog ≠ "" then [rstrip spec.prolog] else []
  let epilogLines := if spec.epilog ≠ "" then [rstrip spec.epilog] else []
  let dataLines := records.enum.map (fun er =>
    String.intercalate separator (spec.properties.map (fun prop =>
      let value := pyOr ((dget er.2 prop.name).getD "") (prop.default_value.getD "")
      if hasDollarBrace value.data then
        expand value (dinsert er.2 "index" (toString er.1))
      else value)))
  String.intercalate "\n" (prologLines ++ dataLines ++ epilogLines)

/-! ## Specification-side definitions

Everything below this point up to the theorems is written from the
wording of the specification, not from the Python code; the claim
theorems compare these renderings with the code translations above. -/

/-- Spec 4.7: resolve one output field — the record's own value for the
property name if present and non-empty, else the property's configured
default value, else the empty string. -/
def resolve_value_spec (record : List (String × String)) (prop : ResultProperty) : String :=
  match dget record prop.name with
  | some v =>
    if v ≠ "" then v
    else match prop.default_value with
      | some d => d
      | none => ""
  | none =>
    match prop.default_value with
    | some d => d
    | none => ""

/-- Spec 4.7 (Content Generator), as worded: trimmed prolog line if the
prolog is non-empty; per record (0-based index) one line of the
properties in declared order, each resolved by `resolve_value_spec` and
expanded against the record plus the injected `index` field when it
contains a placeholder opener; trimmed epilog line if non-empty; joined
with single newlines, no trailing newline. -/
def generate_content_spec (spec : FileSpec) (separator : String)
    (records : List (List (String × String))) : String :=
  let recordLine := fun (idx : Nat) (record : List (String × String)) =>
    String.intercalate separator (spec.properties.map (fun prop =>
      let v := resolve_value_spec record prop
      if hasDollarBrace v.data then expand v (dinsert record "index" (toString idx))
      else v))
  String.intercalate "\n"
    ((if spec.prolog ≠ "" then [rstrip spec.prolog] else []) ++
     (records.enum.map (fun er => recordLine er.1 er.2)) ++
     (if spec.epilog ≠ "" then [rstrip spec.epilog] else []))

/-- Spec 4.3, stop condition for a data row, as worded: the first
column's value is empty/whitespace-only, or it equals the sentinel when
one is configured. -/
def stopRow_spec (startCol : Nat) (endValue : Option String)
    (r : List CellValue) : Bool :=
  let firstCell := cell_to_string (r.getD (startCol - 1) CellValue.empty)
  isBlank firstCell || decide (endValue = some firstCell)

/-- Spec 4.3: one emitted row — a map from each header to the
corresponding column's normalized value. -/
def mkRow_spec (headers : List String) (startCol : Nat)
    (r : List CellValue) : List (String × String) :=
  dictOf (headers.enum.map (fun p =>
    (p.2, cell_to_string (r.getD (startCol - 1 + p.1) CellValue.empty))))

/-- Spec 4.3 (Table Reader), as worded: headers are the normalized
header-row values up to the first empty/whitespace-only cell (verbatim,
untrimmed); no headers means no rows; otherwise the rows are the maximal
prefix of the data rows not hitting a stop condition, each emitted as a
header-to-value map, in worksheet order. -/
def read_table_spec (sheet : Sheet) (start_address : String)
    (end_value : Option String) : Except String (List (List (String × String))) :=
  match parse_cell_address start_address with
  | .error e => .error e
  | .ok (start_row, start_col) =>
    let headerCells := (sheet.getD (start_row - 1) []).drop (start_col - 1)
    let headers := (headerCells.map cell_to_string).takeWhile (fun s => !(isBlank s))
    if headers.isEmpty then .ok []
    else
      .ok ((((sheet.drop start_row)).takeWhile
          (fun r => !(stopRow_spec start_col end_value r))).map
        (mkRow_spec headers start_col))

/-- The value `extract_header` stores for one header property: parse the
locator, read and normalize the cell, apply the transform chain. -/
def headerPropValue (sheet : Sheet) (prop : SourceProperty) : Option String :=
  match parse_cell_address prop.locator with
  | .ok rc => some (apply_replacements (cell_to_string (cellAt sheet rc.1 rc.2)) prop)
  | .error _ => none

/-- Spec 4.5 (`extractHeader`), as a per-key lookup: the transformed cell
value of the last header property with that name (highest precedence),
else the source-level default, else the result-header derived default. -/
def header_layer_spec (sheet : Sheet) (source : Source)
    (result_header : FileSpec) (k : String) : Option String :=
  (((source.header.reverse.find? (fun p => p.name == k)).bind
      (headerPropValue sheet)).orElse
    (fun _ => (dlast source.default_values k).orElse
      (fun _ => dget result_header.default_values k)))

/-- Spec 6 address syntax, as worded: does the whole string match
`[A-Za-z]+[0-9]+` with nothing before or after? -/
def matchesFullAddressPattern (s : String) : Bool :=
  let letters := s.data.takeWhile isAsciiLetter
  let rest := s.data.dropWhile isAsciiLetter
  !letters.isEmpty && !rest.isEmpty && rest.all isDigitChar

/-- Spec 4.6 template decomposition: a template is a sequence of literal
characters and `${ident}` holes. -/
inductive Token where
  | lit (c : Char)
  | hole (ident : String)
deriving Repr, DecidableEq

/-- Decompose a template into literal characters and holes. This scan
depends only on the template text, never on the field map; it mirrors
the fuel discipline of `expandAux`. -/
def tokenize : Nat → List Char → List Token
  | _, [] => []
  | 0, cs => cs.map Token.lit
  | fuel + 1, '$' :: '{' :: rest =>
    match scanIdent rest with
    | some (ident, rest2) =>
      if ident.isEmpty then Token.lit '$' :: Token.lit '{' :: tokenize fuel rest
      else Token.hole (String.mk ident) :: tokenize fuel rest2
    | none => Token.lit '$' :: Token.lit '{' :: tokenize fuel rest
  | fuel + 1, c :: rest => Token.lit c :: tokenize fuel rest

/-- Spec 4.6: a literal renders as itself; a hole renders as the string
form of the map's value for the identifier, or empty when absent. -/
def renderToken (props : List (String × String)) : Token → List Char
  | .lit c => [c]
  | .hole ident => ((dget props ident).getD "").data

/-- Spec 4.6 (Template Expander), as worded: decompose the template once,
then render every token against the field map — a single pass in which
substituted text is never re-scanned. -/
def expand_spec (template : String) (props : List (String × String)) : String :=
  String.mk (((tokenize (template.data.length + 1) template.data).map
    (renderToken props)).flatten)

/-! ## Theorems: dictionary model -/

theorem dget_nil (k : String) : dget [] k = none := rfl

theorem dget_cons (p : String × String) (m : List (String × String)) (k : String) :
    dget (p :: m) k = if p.1 = k then some p.2 else dget m k := by
  unfold dget
  cases h : p.1 == k with
  | true => simp [List.find?, h, eq_of_beq h]
  | false =>
    have : ¬ p.1 = k := by simpa using h
    simp [List.find?, h, this]

theorem dget_map_replace (m : List (String × String)) (k v k' : String)
    (hne : k' ≠ k) :
    dget (m.map (fun p => if p.1 == k then (p.1, v) else p)) k' = dget m k' := by
  induction m with
  | nil => rfl
  | cons hd tl ih =>
    rw [List.map_cons, dget_cons, dget_cons]
    cases h : hd.1 == k with
    | true =>
      have hk : hd.1 = k := eq_of_beq h
      have hne' : hd.1 ≠ k' := fun h2 => hne (h2.symm.trans hk)
      simp only [h, if_true]
      simp only [hne', if_false]
      simpa using ih
    | false =>
      simp [h]
      by_cases h2 : hd.1 = k'
      · simp [h2]
      · simp only [h2, if_false]
        simpa using ih

theorem dget_map_replace_hit (m : List (String × String)) (k v : String)
    (hmem : m.any (fun p => p.1 == k)) :
    dget (m.map (fun p => if p.1 == k then (p.1, v) else p)) k = some v := by
  induction m with
  | nil => simp at hmem
  | cons hd tl ih =>
    rw [List.map_cons, dget_cons]
    cases h : hd.1 == k with
    | true => simp [h, eq_of_beq h]
    | false =>
      have hne : ¬ hd.1 = k := by simpa using h
      simp only [List.any_cons, h, Bool.false_or] at hmem
      simp [h, hne]
      simpa using ih hmem

theorem dget_append_single (m : List (String × String)) (k v k' : String) :
    dget (m ++ [(k, v)]) k' =
      ((dget m k').orElse (fun _ => if k' = k then some v else none)) := by
  induction m with
  | nil =>
    by_cases hk : k = k'
    · simp [dget_cons, dget_nil, hk, Option.orElse]
    · have : ¬ k' = k := fun h => hk h.symm
      simp [dget_cons, dget_nil, hk, this, Option.orElse]
  | cons hd tl ih =>
    rw [List.cons_append, dget_cons, dget_cons]
    by_cases h : hd.1 = k'
    · simp [h, Option.orElse]
    · simp [h, ih]

theorem dget_dinsert (m : List (String × String)) (k v k' : String) :
    dget (dinsert m k v) k' = if k' = k then some v else dget m k' := by
  unfold dinsert
  by_cases hmem : m.any (fun p => p.1 == k)
  · rw [if_pos hmem]
    by_cases hk : k' = k
    · subst hk
      rw [if_pos rfl]
      exact dget_map_replace_hit m k' v hmem
    · rw [if_neg hk]
      exact dget_map_replace m k v k' hk
  · rw [if_neg hmem]
    rw [dget_append_single]
    by_cases hk : k' = k
    · subst hk
      have hnone : dget m k' = none := by
        unfold dget
        rw [List.find?_eq_none.mpr]
        · rfl
        · intro p hp hbeq
          exact hmem (List.any_of_mem hp hbeq)
      simp [hnone, Option.orElse]
    · cases h : dget m k' <;> simp [h, hk, Option.orElse]

theorem dget_pyUpdate (m : List (String × String)) (xs : List (String × String))
    (k : String) :
    dget (pyUpdate m xs) k = (dlast xs k).orElse (fun _ => dget m k) := by
  induction xs generalizing m with
  | nil => simp [pyUpdate, dlast]
  | cons hd tl ih =>
    show dget (pyUpdate (dinsert m hd.1 hd.2) tl) k = _
    rw [ih]
    unfold dlast
    rw [List.reverse_cons, List.find?_append]
    cases hfind : tl.reverse.find? (fun p => p.1 == k) with
    | some p => simp [dlast, hfind, Option.orElse]
    | none =>
      simp only [dlast, hfind, Option.map_none', Option.none_orElse, Option.or_none]
      rw [dget_dinsert]
      cases h : hd.1 == k with
      | true =>
        have hk : hd.1 = k := eq_of_beq h
        simp [List.find?, h, hk, Option.orElse]
      | false =>
        have : ¬ k = hd.1 := fun h2 => by simp [h2] at h
        simp [List.find?, h, this, Option.orElse]

theorem dget_dictOf (xs : List (String × String)) (k : String) :
    dget (dictOf xs) k = dlast xs k := by
  rw [dictOf, dget_pyUpdate]
  cases h : dlast xs k <;> simp [h, Option.orElse, dget]

/-! ## Theorems: claim C5 (value transformer) -/

/-- C5: the value transformer applies the configured (pattern,
replacement) pairs in their exact configuration order, each step a
global regex substitution fed the previous step's output (splitting the
chain splits the computation accordingly); an empty chain passes the
value through unchanged; on `"00123-456"` the chain
`[("^0+",""), ("-","")]` yields `"123456"`; and on the input `"0-0123"`
that chain and its reversal produce different results (`"0123"` versus
`"123"`), so the order is semantically significant. -/
theorem c5_apply_replacements_ordered_chain :
    (∀ (value : String) (n l : String),
      apply_replacements value ⟨n, l, []⟩ = value) ∧
    (∀ (value : String) (n l : String) (rs1 rs2 : List (String × String)),
      apply_replacements value ⟨n, l, rs1 ++ rs2⟩ =
        apply_replacements (apply_replacements value ⟨n, l, rs1⟩) ⟨n, l, rs2⟩) ∧
    apply_replacements "00123-456" ⟨"x", "A1", [("^0+", ""), ("-", "")]⟩ = "123456" ∧
    apply_replacements "0-0123" ⟨"x", "A1", [("^0+", ""), ("-", "")]⟩ = "0123" ∧
    apply_replacements "0-0123" ⟨"x", "A1", [("-", ""), ("^0+", "")]⟩ = "123" ∧
    apply_replacements "0-0123" ⟨"x", "A1", [("^0+", ""), ("-", "")]⟩ ≠
      apply_replacements "0-0123" ⟨"x", "A1", [("-", ""), ("^0+", "")]⟩ := by
  refine ⟨fun value n l => rfl, fun value n l rs1 rs2 => ?_, ?_, ?_, ?_, ?_⟩
  · unfold apply_replacements
    exact List.foldl_append _ _ rs1 rs2
  · decide
  · decide
  · decide
  · decide

/-! ## Theorems: claim C1 (content generator) -/

theorem resolve_value_eq (record : List (String × String)) (prop : ResultProperty) :
    pyOr ((dget record prop.name).getD "") (prop.default_value.getD "") =
      resolve_value_spec record prop := by
  unfold pyOr resolve_value_spec
  cases h : dget record prop.name with
  | none => cases hd : prop.default_value <;> simp [hd]
  | some v =>
    by_cases hv : v = ""
    · cases hd : prop.default_value <;> simp [hv, hd]
    · cases hd : prop.default_value <;> simp [hv, hd]

/-- C1: `generate_content` emits exactly what the specification's
Content Generator section describes — trimmed prolog line when the
prolog is non-empty, then per record (0-based) the fields in the
FileSpec's declared property order, each resolved as the record's own
non-empty value, else the configured default, else empty, expanded
against the record plus the injected `index` field when it contains
`${`, joined by the separator, then the trimmed epilog line when
non-empty, all lines joined by single newlines with no trailing newline
— including the specification's two concrete examples. -/
theorem c1_generate_content_matches_spec :
    (∀ (spec : FileSpec) (separator : String)
      (records : List (List (String × String))),
      generate_content spec separator records =
        generate_content_spec spec separator records) ∧
    generate_content ⟨"f", [⟨"a", "text", none, none⟩, ⟨"b", "text", none, none⟩], "", ""⟩
      ";" [[("a", "1"), ("b", "2")], [("a", "3"), ("b", "4")]] = "1;2\n3;4" ∧
    generate_content ⟨"f", [⟨"x", "text", none, none⟩], "HEADER", "FOOTER"⟩
      ";" [[("x", "data")]] = "HEADER\ndata\nFOOTER" := by
  refine ⟨fun spec separator records => ?_, by decide, by decide⟩
  unfold generate_content generate_content_spec
  simp only [resolve_value_eq]

/-! ## Theorems: claims C3 and C10 (missing properties, derived defaults) -/

theorem dget_isSome_iff_mem_keys (m : List (String × String)) (k : String) :
    (dget m k).isSome ↔ k ∈ m.map Prod.fst := by
  unfold dget
  rw [Option.isSome_map', List.find?_isSome]
  constructor
  · rintro ⟨p, hp, hbeq⟩
    exact List.mem_map.mpr ⟨p, hp, eq_of_beq hbeq⟩
  · rintro hmem
    obtain ⟨p, hp, hk⟩ := List.mem_map.mp hmem
    exact ⟨p, hp, by simp [hk]⟩

theorem filespec_default_isSome_iff (fs : FileSpec) (k : String) :
    (dget fs.default_values k).isSome ↔
      ∃ p ∈ fs.properties, p.name = k ∧ ∃ d, p.default_value = some d ∧ d ≠ "" := by
  unfold FileSpec.default_values
  rw [dget_dictOf]
  unfold dlast
  rw [Option.isSome_map', List.find?_isSome]
  constructor
  · rintro ⟨x, hx, hbeq⟩
    rw [List.mem_reverse, List.mem_filterMap] at hx
    obtain ⟨p, hp, hfp⟩ := hx
    refine ⟨p, hp, ?_⟩
    cases hd : p.default_value with
    | none => rw [hd] at hfp; simp at hfp
    | some d =>
      rw [hd] at hfp
      have hfp' : (if d = "" then (none : Option (String × String))
          else some (p.name, d)) = some x := hfp
      by_cases hde : d = ""
      · rw [if_pos hde] at hfp'; simp at hfp'
      · rw [if_neg hde] at hfp'
        simp only [Option.some.injEq] at hfp'
        cases hfp'
        exact ⟨eq_of_beq hbeq, d, rfl, hde⟩
  · rintro ⟨p, hp, hname, d, hd, hde⟩
    refine ⟨(p.name, d), ?_, by simp [hname]⟩
    rw [List.mem_reverse, List.mem_filterMap]
    refine ⟨p, hp, ?_⟩
    rw [hd]
    show (if d = "" then (none : Option (String × String))
        else some (p.name, d)) = some (p.name, d)
    rw [if_neg hde]

theorem mem_keys_iff_default (fs : FileSpec) (k : String) :
    k ∈ fs.default_values.map Prod.fst ↔
      ∃ p ∈ fs.properties, p.name = k ∧ ∃ d, p.default_value = some d ∧ d ≠ "" := by
  rw [← dget_isSome_iff_mem_keys, filespec_default_isSome_iff]

/-- C3: `missing_properties` returns exactly the result-header
properties whose name is neither among the source header property names
nor in the union of the source default-value keys and the result
header's derived default-value keys, as a filter of
`result_header.properties` (so in declared order); consequently it never
returns an extracted or defaulted property; and on the specification's
example (header `[customerCode]`, result properties
`[customerCode, invoiceDate]`) it returns exactly `[invoiceDate]`. -/
theorem c3_missing_properties_characterization :
    (∀ (source : Source) (fs : FileSpec),
      missing_properties source fs = fs.properties.filter (fun p =>
        decide (p.name ∉ source.header.map SourceProperty.name ∧
          ¬ (p.name ∈ source.default_values.map Prod.fst ∨
             p.name ∈ fs.default_values.map Prod.fst)))) ∧
    (∀ (source : Source) (fs : FileSpec) (p : ResultProperty),
      p ∈ missing_properties source fs →
        p.name ∉ source.header.map SourceProperty.name ∧
        p.name ∉ source.default_values.map Prod.fst ∧
        p.name ∉ fs.default_values.map Prod.fst) ∧
    missing_properties
      ⟨"s", "d", 0, [⟨"customerCode", "B3", []⟩], ⟨"A10", [], none⟩, none, []⟩
      ⟨"f", [⟨"customerCode", "text", none, none⟩,
             ⟨"invoiceDate", "date", none, none⟩], "", ""⟩ =
      [⟨"invoiceDate", "date", none, none⟩] := by
  have hchar : ∀ (source : Source) (fs : FileSpec),
      missing_properties source fs = fs.properties.filter (fun p =>
        decide (p.name ∉ source.header.map SourceProperty.name ∧
          ¬ (p.name ∈ source.default_values.map Prod.fst ∨
             p.name ∈ fs.default_values.map Prod.fst))) := by
    intro source fs
    unfold missing_properties
    refine List.filter_congr (fun p _ => ?_)
    rw [Bool.eq_iff_iff]
    simp [List.contains, List.mem_append, not_or, List.mem_map]
  refine ⟨hchar, fun source fs p hp => ?_, by decide⟩
  rw [hchar] at hp
  have := (List.mem_filter.mp hp).2
  simp only [decide_eq_true_eq] at this
  exact ⟨this.1, fun hmem => this.2 (Or.inl hmem), fun hmem => this.2 (Or.inr hmem)⟩

/-- Witness for the conditional part of C3: on the specification's
concrete source and result header, the returned property `invoiceDate`
is indeed neither extracted nor defaulted. -/
theorem c3_missing_properties_characterization_witness :
    (⟨"invoiceDate", "date", none, none⟩ : ResultProperty) ∈ missing_properties
      ⟨"s", "d", 0, [⟨"customerCode", "B3", []⟩], ⟨"A10", [], none⟩, none, []⟩
      ⟨"f", [⟨"customerCode", "text", none, none⟩,
             ⟨"invoiceDate", "date", none, none⟩], "", ""⟩ ∧
    ((⟨"invoiceDate", "date", none, none⟩ : ResultProperty).name ∉
        ([⟨"customerCode", "B3", []⟩] : List SourceProperty).map SourceProperty.name ∧
      (⟨"invoiceDate", "date", none, none⟩ : ResultProperty).name ∉
        ([] : List (String × String)).map Prod.fst ∧
      (⟨"invoiceDate", "date", none, none⟩ : ResultProperty).name ∉
        (FileSpec.mk "f" [⟨"customerCode", "text", none, none⟩,
          ⟨"invoiceDate", "date", none, none⟩] "" "").default_values.map Prod.fst) :=
  ⟨by decide,
   c3_missing_properties_characterization.2.1
     ⟨"s", "d", 0, [⟨"customerCode", "B3", []⟩], ⟨"A10", [], none⟩, none, []⟩
     ⟨"f", [⟨"customerCode", "text", none, none⟩,
            ⟨"invoiceDate", "date", none, none⟩], "", ""⟩
     ⟨"invoiceDate", "date", none, none⟩ (by decide)⟩

/-- C10: the derived default-value map of a FileSpec has an entry for a
key exactly when some property with that name has a default value that
is neither `None` nor empty (so an empty-string default contributes
nothing); consequently a result-header property none of whose same-named
properties carries a truthy default, and whose name is neither extracted
nor among the source default keys, is reported by `missing_properties`
as requiring user input. -/
theorem c10_empty_default_requires_input :
    (∀ (fs : FileSpec) (k : String),
      (dget fs.default_values k).isSome ↔
        ∃ p ∈ fs.properties, p.name = k ∧ ∃ d, p.default_value = some d ∧ d ≠ "") ∧
    (∀ (source : Source) (fs : FileSpec) (p : ResultProperty),
      p ∈ fs.properties →
      p.name ∉ source.header.map SourceProperty.name →
      p.name ∉ source.default_values.map Prod.fst →
      (∀ q ∈ fs.properties, q.name = p.name →
        q.default_value = none ∨ q.default_value = some "") →
      p ∈ missing_properties source fs) := by
  refine ⟨filespec_default_isSome_iff, ?_⟩
  intro source fs p hp hnh hns hq
  unfold missing_properties
  rw [List.mem_filter]
  refine ⟨hp, ?_⟩
  simp only [List.contains, List.mem_append, Bool.and_eq_true, Bool.not_eq_true',
    List.elem_eq_mem, decide_eq_false_iff_not]
  refine ⟨hnh, fun hmem => ?_⟩
  rcases hmem with hmem | hmem
  · exact hns hmem
  · obtain ⟨q, hqmem, hqname, d, hd, hde⟩ := (mem_keys_iff_default fs p.name).mp hmem
    rcases hq q hqmem hqname with h0 | h0 <;> rw [h0] at hd
    · exact Option.noConfusion hd
    · exact hde (Option.some.injEq .. ▸ hd.symm)

/-! ## Theorems: list scanning helpers -/

theorem takeWhile_append_all {α : Type} (p : α → Bool) (xs ys : List α)
    (h : ∀ c ∈ xs, p c = true) :
    (xs ++ ys).takeWhile p = xs ++ ys.takeWhile p := by
  induction xs with
  | nil => simp
  | cons a l ih =>
    rw [List.cons_append, List.takeWhile_cons, if_pos (h a (by simp))]
    rw [ih (fun c hc => h c (by simp [hc])), List.cons_append]

theorem dropWhile_append_all {α : Type} (p : α → Bool) (xs ys : List α)
    (h : ∀ c ∈ xs, p c = true) :
    (xs ++ ys).dropWhile p = ys.dropWhile p := by
  induction xs with
  | nil => simp
  | cons a l ih =>
    rw [List.cons_append, List.dropWhile_cons, if_pos (h a (by simp))]
    exact ih (fun c hc => h c (by simp [hc]))

theorem mem_takeWhile_pred {α : Type} (p : α → Bool) (l : List α) :
    ∀ c ∈ l.takeWhile p, p c = true := by
  induction l with
  | nil => simp
  | cons a l ih =>
    rw [List.takeWhile_cons]
    by_cases hp : p a
    · rw [if_pos hp]
      intro c hc
      rcases List.mem_cons.mp hc with rfl | hc
      · exact hp
      · exact ih c hc
    · rw [if_neg hp]
      simp

theorem not_letter_of_digit (c : Char) (h : isDigitChar c = true) :
    isAsciiLetter c = false := by
  simp [isDigitChar] at h
  simp [isAsciiLetter]
  omega

/-! ## Theorems: claims C6 and C8 (address resolver) -/

/-- Sanity: the executable full-pattern check `matchesFullAddressPattern`
is exactly "the whole string is letters then digits, both non-empty"
(the spec's `[A-Za-z]+[0-9]+` anchored at both ends). -/
theorem matchesFullAddressPattern_iff (s : String) :
    matchesFullAddressPattern s = true ↔
      ∃ L D : List Char, s.data = L ++ D ∧ L ≠ [] ∧ D ≠ [] ∧
        (∀ c ∈ L, isAsciiLetter c = true) ∧ (∀ c ∈ D, isDigitChar c = true) := by
  unfold matchesFullAddressPattern
  simp only [Bool.and_eq_true, Bool.not_eq_true', List.isEmpty_eq_false,
    List.all_eq_true]
  constructor
  · rintro ⟨⟨hl, hr⟩, hall⟩
    refine ⟨s.data.takeWhile isAsciiLetter, s.data.dropWhile isAsciiLetter,
      (List.takeWhile_append_dropWhile isAsciiLetter s.data).symm, hl, hr,
      mem_takeWhile_pred isAsciiLetter s.data, hall⟩
  · rintro ⟨L, D, hsplit, hL, hD, hletters, hdigits⟩
    obtain ⟨d, D', rfl⟩ : ∃ d D', D = d :: D' := by
      cases D with
      | nil => exact absurd rfl hD
      | cons d D' => exact ⟨d, D', rfl⟩
    have hdnl : isAsciiLetter d = false :=
      not_letter_of_digit d (hdigits d (by simp))
    have htake : s.data.takeWhile isAsciiLetter = L := by
      rw [hsplit, takeWhile_append_all isAsciiLetter L _ hletters,
        List.takeWhile_cons, if_neg (by simp [hdnl]), List.append_nil]
    have hdrop : s.data.dropWhile isAsciiLetter = d :: D' := by
      rw [hsplit, dropWhile_append_all isAsciiLetter L _ hletters,
        List.dropWhile_cons, if_neg (by simp [hdnl])]
    rw [htake, hdrop]
    exact ⟨⟨hL, by simp⟩, hdigits⟩

/-- C6 counterexample: the claim says any string with trailing
characters after the digits is rejected, but `re.match` only anchors at
the start, so `parse_cell_address "A1X"` succeeds (as cell (1,1)) even
though `"A1X"` does not match the full pattern `[A-Za-z]+[0-9]+`
end-to-end. -/
theorem c6_counterexample_trailing_accepted :
    parse_cell_address "A1X" = Except.ok (1, 1) ∧
      matchesFullAddressPattern "A1X" = false := by
  constructor
  · rfl
  · rfl

/-- C6 (amended): `parse_cell_address` succeeds iff the string BEGINS
with one or more letters immediately followed by one or more digits;
leading characters before the letters are rejected, but trailing
characters after the digit run are accepted and ignored. -/
theorem c6_amended_error_iff_no_prefix_match (s : String) :
    (∃ rc, parse_cell_address s = Except.ok rc) ↔
      ∃ L D T : List Char, s.data = L ++ D ++ T ∧ L ≠ [] ∧ D ≠ [] ∧
        (∀ c ∈ L, isAsciiLetter c = true) ∧ (∀ c ∈ D, isDigitChar c = true) := by
  unfold parse_cell_address
  by_cases hcond : (s.data.takeWhile isAsciiLetter).isEmpty ||
      ((s.data.dropWhile isAsciiLetter).takeWhile isDigitChar).isEmpty
  · rw [if_pos hcond]
    simp only [Bool.or_eq_true, List.isEmpty_iff] at hcond
    constructor
    · rintro ⟨rc, hrc⟩
      exact Except.noConfusion hrc
    · rintro ⟨L, D, T, hsplit, hL, hD, hletters, hdigits⟩
      obtain ⟨d, D', rfl⟩ : ∃ d D', D = d :: D' := by
        cases D with
        | nil => exact absurd rfl hD
        | cons d D' => exact ⟨d, D', rfl⟩
      have hdnl : isAsciiLetter d = false :=
        not_letter_of_digit d (hdigits d (by simp))
      have htake : s.data.takeWhile isAsciiLetter = L := by
        rw [hsplit, List.append_assoc, takeWhile_append_all isAsciiLetter L _ hletters,
          List.cons_append, List.takeWhile_cons, if_neg (by simp [hdnl]), List.append_nil]
      have hdrop : s.data.dropWhile isAsciiLetter = d :: (D' ++ T) := by
        rw [hsplit, List.append_assoc, dropWhile_append_all isAsciiLetter L _ hletters,
          List.cons_append, List.dropWhile_cons, if_neg (by simp [hdnl])]
      rcases hcond with hcond | hcond
      · rw [htake] at hcond
        exact absurd hcond hL
      · rw [hdrop, List.takeWhile_cons, if_pos (hdigits d (by simp))] at hcond
        exact List.noConfusion hcond
  · rw [if_neg hcond]
    simp only [Bool.or_eq_true, List.isEmpty_iff, not_or] at hcond
    constructor
    · rintro -
      refine ⟨s.data.takeWhile isAsciiLetter,
        (s.data.dropWhile isAsciiLetter).takeWhile isDigitChar,
        (s.data.dropWhile isAsciiLetter).dropWhile isDigitChar, ?_, hcond.1, hcond.2,
        mem_takeWhile_pred isAsciiLetter s.data,
        mem_takeWhile_pred isDigitChar (s.data.dropWhile isAsciiLetter)⟩
      rw [List.append_assoc, List.takeWhile_append_dropWhile,
        List.takeWhile_append_dropWhile]
    · rintro -
      exact ⟨_, rfl⟩

theorem toNat_ofNat_valid (n : Nat) (h : n < 55296) : (Char.ofNat n).toNat = n := by
  unfold Char.ofNat
  rw [dif_pos (Or.inl h)]
  rfl

theorem toNat_toLower (c : Char) :
    (Char.toLower c).toNat =
      if 65 ≤ c.toNat ∧ c.toNat ≤ 90 then c.toNat + 32 else c.toNat := by
  unfold Char.toLower
  by_cases h : c.toNat ≥ 65 ∧ c.toNat ≤ 90
  · rw [if_pos h, if_pos ⟨h.1, h.2⟩]
    exact toNat_ofNat_valid (c.toNat + 32) (by omega)
  · rw [if_neg h, if_neg (fun h2 => h ⟨h2.1, h2.2⟩)]

theorem isAsciiLetter_toLower (c : Char) :
    isAsciiLetter (Char.toLower c) = isAsciiLetter c := by
  unfold isAsciiLetter
  rw [toNat_toLower]
  by_cases h : 65 ≤ c.toNat ∧ c.toNat ≤ 90
  · rw [if_pos h]
    rw [Bool.eq_iff_iff]
    simp only [Bool.or_eq_true, Bool.and_eq_true, decide_eq_true_eq]
    omega
  · rw [if_neg h]

theorem isDigitChar_toLower (c : Char) :
    isDigitChar (Char.toLower c) = isDigitChar c := by
  unfold isDigitChar
  rw [toNat_toLower]
  by_cases h : 65 ≤ c.toNat ∧ c.toNat ≤ 90
  · rw [if_pos h]
    rw [Bool.eq_iff_iff]
    simp only [Bool.and_eq_true, decide_eq_true_eq]
    omega
  · rw [if_neg h]

theorem letterVal_toLower (c : Char) : letterVal (Char.toLower c) = letterVal c := by
  unfold letterVal
  rw [toNat_toLower]
  by_cases h : 65 ≤ c.toNat ∧ c.toNat ≤ 90
  · rw [if_pos h]
    split_ifs <;> omega
  · rw [if_neg h]

theorem toLower_fix_of_digit (c : Char) (h : isDigitChar c = true) :
    Char.toLower c = c := by
  simp only [isDigitChar, Bool.and_eq_true, decide_eq_true_eq] at h
  unfold Char.toLower
  rw [if_neg (fun h2 => by omega)]

theorem colValue_foldl_toLower (letters : List Char) (acc : Nat) :
    letters.foldl (fun acc c => acc * 26 + letterVal c) acc =
      (letters.map Char.toLower).foldl (fun acc c => acc * 26 + letterVal c) acc := by
  induction letters generalizing acc with
  | nil => rfl
  | cons c l ih =>
    rw [List.map_cons, List.foldl_cons, List.foldl_cons, letterVal_toLower, ih]

theorem parse_cell_address_structured (letters digits : List Char)
    (hl : letters ≠ []) (hd : digits ≠ [])
    (hletters : ∀ c ∈ letters, isAsciiLetter c = true)
    (hdigits : ∀ c ∈ digits, isDigitChar c = true) :
    parse_cell_address (String.mk (letters ++ digits)) =
      Except.ok (digitsVal digits, colValue letters) := by
  obtain ⟨d, D', rfl⟩ : ∃ d D', digits = d :: D' := by
    cases digits with
    | nil => exact absurd rfl hd
    | cons d D' => exact ⟨d, D', rfl⟩
  have hdnl : isAsciiLetter d = false :=
    not_letter_of_digit d (hdigits d (by simp))
  have htake : (String.mk (letters ++ d :: D')).data.takeWhile isAsciiLetter = letters := by
    show (letters ++ d :: D').takeWhile isAsciiLetter = letters
    rw [takeWhile_append_all isAsciiLetter letters _ hletters,
      List.takeWhile_cons, if_neg (by simp [hdnl]), List.append_nil]
  have hdrop : (String.mk (letters ++ d :: D')).data.dropWhile isAsciiLetter = d :: D' := by
    show (letters ++ d :: D').dropWhile isAsciiLetter = d :: D'
    rw [dropWhile_append_all isAsciiLetter letters _ hletters,
      List.dropWhile_cons, if_neg (by simp [hdnl])]
  have hdall : (d :: D').takeWhile isDigitChar = d :: D' := by
    rw [List.takeWhile_cons, if_pos (hdigits d (by simp))]
    congr 1
    rw [List.takeWhile_eq_self_iff]
    intro c hc
    exact hdigits c (by simp [hc])
  simp only [parse_cell_address, htake, hdrop, hdall]
  rw [if_neg (by simp [hl])]

/-- C8: for every valid address (letters then digits, both non-empty)
`parse_cell_address` returns the 1-based pair (decimal row value,
base-26 column value with digit values A=1..Z=26), the lowercase form of
the address parses to exactly the same pair, and the specification's
known values `A1`, `B5`, `AA1`, `AZ1` all hold. -/
theorem c8_parse_cell_address_values :
    (∀ (letters digits : List Char), letters ≠ [] → digits ≠ [] →
      (∀ c ∈ letters, isAsciiLetter c = true) →
      (∀ c ∈ digits, isDigitChar c = true) →
      parse_cell_address (String.mk (letters ++ digits)) =
        Except.ok (digitsVal digits, colValue letters) ∧
      parse_cell_address (String.mk ((letters ++ digits).map Char.toLower)) =
        parse_cell_address (String.mk (letters ++ digits))) ∧
    parse_cell_address "A1" = Except.ok (1, 1) ∧
    parse_cell_address "B5" = Except.ok (5, 2) ∧
    parse_cell_address "AA1" = Except.ok (1, 27) ∧
    parse_cell_address "AZ1" = Except.ok (1, 52) := by
  refine ⟨fun letters digits hl hd hletters hdigits => ⟨?_, ?_⟩, rfl, rfl, rfl, rfl⟩
  · exact parse_cell_address_structured letters digits hl hd hletters hdigits
  · have hmapfix : ∀ l : List Char, (∀ c ∈ l, isDigitChar c = true) →
        l.map Char.toLower = l := by
      intro l
      induction l with
      | nil => intro _; rfl
      | cons c t ih =>
        intro hall
        rw [List.map_cons, toLower_fix_of_digit c (hall c (by simp)),
          ih (fun x hx => hall x (by simp [hx]))]
    have hdigits' : digits.map Char.toLower = digits := hmapfix digits hdigits
    rw [List.map_append, hdigits',
      parse_cell_address_structured letters digits hl hd hletters hdigits,
      parse_cell_address_structured (letters.map Char.toLower) digits
        (by simp [hl]) hd
        (fun c hc => by
          obtain ⟨c0, hc0, rfl⟩ := List.mem_map.mp hc
          rw [isAsciiLetter_toLower]
          exact hletters c0 hc0)
        hdigits]
    rw [colValue, colValue, ← colValue_foldl_toLower]

/-- Witness for C8 at the concrete valid address `AZ1` (uppercase and
lowercase forms). -/
theorem c8_parse_cell_address_values_witness :
    parse_cell_address (String.mk (['A', 'Z'] ++ ['1'])) =
      Except.ok (digitsVal ['1'], colValue ['A', 'Z']) ∧
    parse_cell_address (String.mk ((['A', 'Z'] ++ ['1']).map Char.toLower)) =
      parse_cell_address (String.mk (['A', 'Z'] ++ ['1'])) :=
  c8_parse_cell_address_values.1 ['A', 'Z'] ['1']
    (by decide) (by decide) (by decide) (by decide)

/-! ## Theorems: claim C4 (table reader) -/

theorem readHeaders_eq_takeWhile (cells : List CellValue) :
    readHeaders cells =
      (cells.map cell_to_string).takeWhile (fun s => !(isBlank s)) := by
  induction cells with
  | nil => rfl
  | cons c rest ih =>
    rw [List.map_cons, List.takeWhile_cons]
    unfold readHeaders
    by_cases hb : isBlank (cell_to_string c)
    · rw [if_pos hb, if_neg (by simp [hb])]
    · rw [if_neg hb, if_pos (by simp [hb]), ih]

theorem stopRow_eq (startCol : Nat) (endValue : Option String) (r : List CellValue) :
    (isBlank (cell_to_string (r.getD (startCol - 1) CellValue.empty)) ||
      (match endValue with
       | some ev => decide (ev ≠ "" ∧
           cell_to_string (r.getD (startCol - 1) CellValue.empty) = ev)
       | none => false)) = stopRow_spec startCol endValue r := by
  unfold stopRow_spec
  cases endValue with
  | none => simp
  | some ev =>
    rw [Bool.eq_iff_iff]
    simp only [Bool.or_eq_true, decide_eq_true_eq]
    by_cases hev : ev = ""
    · subst hev
      constructor
      · rintro (hb | ⟨hne, _⟩)
        · exact Or.inl hb
        · exact absurd rfl hne
      · rintro (hb | heq)
        · exact Or.inl hb
        · injection heq with heq
          rw [← heq]
          exact Or.inl (by decide)
    · constructor
      · rintro (hb | ⟨_, heq⟩)
        · exact Or.inl hb
        · exact Or.inr (by rw [heq])
      · rintro (hb | heq)
        · exact Or.inl hb
        · injection heq with heq
          exact Or.inr ⟨hev, heq.symm⟩

theorem readDataRows_eq_takeWhile (headers : List String) (startCol : Nat)
    (endValue : Option String) (rows : List (List CellValue)) :
    readDataRows headers startCol endValue rows =
      (rows.takeWhile (fun r => !(stopRow_spec startCol endValue r))).map
        (mkRow_spec headers startCol) := by
  induction rows with
  | nil => rfl
  | cons r rest ih =>
    rw [List.takeWhile_cons]
    have hcond := stopRow_eq startCol endValue r
    by_cases hstop : stopRow_spec startCol endValue r
    · rw [if_neg (by simp [hstop])]
      unfold readDataRows
      rw [if_pos (by rw [hcond]; exact hstop)]
      rfl
    · rw [if_pos (by simp [hstop])]
      unfold readDataRows
      rw [if_neg (by rw [hcond]; simp [hstop])]
      rw [List.map_cons, ih]
      rfl

/-- C4: `read_table` behaves exactly as the specification's Table Reader
section describes — headers collected rightward (verbatim, untrimmed)
until the first empty/whitespace-only cell, the empty row list when no
headers are found, and otherwise the maximal prefix of data rows below
the header row whose first column is neither blank nor equal to the
configured sentinel, each emitted as a map from each header to the
corresponding column's normalized value in worksheet order — and with
sentinel `TOTAL` it stops before the `TOTAL` row even though a non-empty
row lies beyond it. -/
theorem c4_read_table_matches_spec :
    (∀ (sheet : Sheet) (start_address : String) (end_value : Option String),
      read_table sheet start_address end_value =
        read_table_spec sheet start_address end_value) ∧
    read_table
      [[CellValue.str "SKU", CellValue.str "Qty"],
       [CellValue.str "ABC", CellValue.num 10],
       [CellValue.str "TOTAL", CellValue.num 99],
       [CellValue.str "XYZ", CellValue.num 1]] "A1" (some "TOTAL") =
      Except.ok [[("SKU", "ABC"), ("Qty", "10")]] := by
  refine ⟨fun sheet addr ev => ?_, by rfl⟩
  unfold read_table read_table_spec
  cases hp : parse_cell_address addr with
  | error e => rfl
  | ok rc =>
    obtain ⟨r, c⟩ := rc
    simp only [readHeaders_eq_takeWhile]
    by_cases hh : ((((sheet.getD (r - 1) []).drop (c - 1)).map cell_to_string).takeWhile
        (fun s => !(isBlank s))).isEmpty
    · rw [if_pos hh, if_pos hh]
    · rw [if_neg hh, if_neg hh, readDataRows_eq_takeWhile]

/-! ## Theorems: claim C2 (header extraction layering) -/

theorem except_bind_ok {e a b : Type} (x : a) (f : a → Except e b) :
    (Except.ok x >>= f) = f x := rfl

theorem except_bind_error {e a b : Type} (err : e) (f : a → Except e b) :
    ((Except.error err : Except e a) >>= f) = Except.error err := rfl

theorem extract_fold_ok_all (sheet : Sheet) (props : List SourceProperty)
    (data m : List (String × String))
    (h : props.foldlM
      (fun data prop =>
        match parse_cell_address prop.locator with
        | .error e => .error e
        | .ok rc =>
          .ok (dinsert data prop.name
            (apply_replacements (cell_to_string (cellAt sheet rc.1 rc.2)) prop)))
      data = Except.ok m) :
    ∀ q ∈ props, ∃ rc, parse_cell_address q.locator = Except.ok rc := by
  induction props generalizing data with
  | nil => simp
  | cons p ps ih =>
    rw [List.foldlM_cons] at h
    cases hp : parse_cell_address p.locator with
    | error e =>
      rw [hp, except_bind_error] at h
      exact Except.noConfusion h
    | ok rc =>
      rw [hp, except_bind_ok] at h
      intro q hq
      rcases List.mem_cons.mp hq with rfl | hq
      · exact ⟨rc, hp⟩
      · exact ih _ h q hq

theorem extract_header_fold (sheet : Sheet) (props : List SourceProperty)
    (data m : List (String × String))
    (h : props.foldlM
      (fun data prop =>
        match parse_cell_address prop.locator with
        | .error e => .error e
        | .ok rc =>
          .ok (dinsert data prop.name
            (apply_replacements (cell_to_string (cellAt sheet rc.1 rc.2)) prop)))
      data = Except.ok m)
    (k : String) :
    dget m k = (((props.reverse.find? (fun p => p.name == k)).bind
      (headerPropValue sheet)).orElse (fun _ => dget data k)) := by
  induction props generalizing data with
  | nil =>
    simp only [List.foldlM_nil] at h
    injection h with h
    subst h
    simp [Option.orElse]
  | cons p ps ih =>
    rw [List.foldlM_cons] at h
    cases hp : parse_cell_address p.locator with
    | error e =>
      rw [hp, except_bind_error] at h
      exact Except.noConfusion h
    | ok rc =>
      rw [hp, except_bind_ok] at h
      rw [ih _ h]
      rw [List.reverse_cons, List.find?_append]
      cases hfind : ps.reverse.find? (fun p => p.name == k) with
      | some q =>
        have hqmem : q ∈ ps := List.mem_reverse.mp (List.mem_of_find?_eq_some hfind)
        obtain ⟨rc2, hrc2⟩ := extract_fold_ok_all sheet ps _ m h q hqmem
        simp [headerPropValue, hrc2, Option.orElse]
      | none =>
        simp only [Option.none_or]
        rw [dget_dinsert]
        cases hbeq : p.name == k with
        | true =>
          have hk : k = p.name := (eq_of_beq hbeq).symm
          simp [List.find?, hbeq, headerPropValue, hp, hk, Option.orElse]
        | false =>
          have hk : ¬ k = p.name := fun h2 => by simp [h2] at hbeq
          simp [List.find?, hbeq, hk, Option.orElse]

/-- C2: on success, `extract_header` returns exactly the three-layer
base-to-override merge the specification describes — for every key, the
transformed cell value of the (last) header property with that name
(highest precedence), else the source-level default, else the result
header's derived default (lowest precedence). -/
theorem c2_extract_header_three_layer_merge
    (sheet : Sheet) (source : Source) (result_header : FileSpec)
    (m : List (String × String))
    (h : extract_header sheet source result_header = Except.ok m)
    (k : String) :
    dget m k = header_layer_spec sheet source result_header k := by
  unfold extract_header at h
  rw [extract_header_fold sheet source.header _ m h k]
  unfold header_layer_spec
  cases hfind : (source.header.reverse.find? (fun p => p.name == k)).bind
      (headerPropValue sheet) with
  | some v => rfl
  | none =>
    show dget (pyUpdate result_header.default_values source.default_values) k =
      (dlast source.default_values k).orElse
        (fun _ => dget result_header.default_values k)
    rw [dget_pyUpdate]

/-- Witness for C2: a concrete one-cell sheet, a source with one header
property, one source default and one result default; the merged record
agrees with the specification merge on all four kinds of keys. -/
theorem c2_extract_header_three_layer_merge_witness :
    extract_header [[CellValue.str "V"]]
      ⟨"s", "d", 0, [⟨"x", "A1", []⟩], ⟨"A10", [], none⟩, none, [("sd", "1")]⟩
      ⟨"f", [⟨"rd", "text", none, some "2"⟩], "", ""⟩ =
      Except.ok [("rd", "2"), ("sd", "1"), ("x", "V")] ∧
    dget [("rd", "2"), ("sd", "1"), ("x", "V")] "x" =
      header_layer_spec [[CellValue.str "V"]]
        ⟨"s", "d", 0, [⟨"x", "A1", []⟩], ⟨"A10", [], none⟩, none, [("sd", "1")]⟩
        ⟨"f", [⟨"rd", "text", none, some "2"⟩], "", ""⟩ "x" :=
  ⟨by rfl,
   c2_extract_header_three_layer_merge [[CellValue.str "V"]]
     ⟨"s", "d", 0, [⟨"x", "A1", []⟩], ⟨"A10", [], none⟩, none, [("sd", "1")]⟩
     ⟨"f", [⟨"rd", "text", none, some "2"⟩], "", ""⟩
     [("rd", "2"), ("sd", "1"), ("x", "V")] (by rfl) "x"⟩

/-! ## Theorems: claim C9 (template expander) -/

theorem flatten_map_lit (props : List (String × String)) (l : List Char) :
    ((l.map Token.lit).map (renderToken props)).flatten = l := by
  induction l with
  | nil => rfl
  | cons c cs ih =>
    rw [List.map_cons, List.map_cons, List.flatten_cons, ih]
    rfl

theorem expandAux_eq_tokenize (props : List (String × String)) :
    ∀ (fuel : Nat) (cs : List Char),
      expandAux props fuel cs =
        ((tokenize fuel cs).map (renderToken props)).flatten := by
  intro fuel
  induction fuel with
  | zero =>
    intro cs
    cases cs with
    | nil => rfl
    | cons c rest =>
      rw [expandAux.eq_2 props _ (by simp), tokenize.eq_2 _ (by simp), flatten_map_lit]
  | succ fuel ih =>
    intro cs
    cases cs with
    | nil => rfl
    | cons c rest =>
      by_cases hdollar : c = '$' ∧ ∃ rest1, rest = '{' :: rest1
      · obtain ⟨rfl, rest1, rfl⟩ := hdollar
        rw [expandAux.eq_3, tokenize.eq_3]
        cases hscan : scanIdent rest1 with
        | none => simp [renderToken, ih]
        | some p =>
          obtain ⟨ident, rest2⟩ := p
          by_cases hid : ident.isEmpty <;> simp [hid, renderToken, ih]
      · have hcond : ∀ (rest1 : List Char), c = '$' → rest = '{' :: rest1 → False :=
          fun rest1 h1 h2 => hdollar ⟨h1, rest1, h2⟩
        rw [expandAux.eq_4 props fuel c rest hcond, tokenize.eq_4 fuel c rest hcond]
        simp [renderToken, ih]

theorem expandAux_no_brace (props : List (String × String)) :
    ∀ (fuel : Nat) (cs : List Char),
      hasDollarBrace cs = false → expandAux props fuel cs = cs := by
  intro fuel
  induction fuel with
  | zero => intro cs _; cases cs <;> rfl
  | succ fuel ih =>
    intro cs hnb
    cases cs with
    | nil => rfl
    | cons c rest =>
      by_cases hdollar : c = '$' ∧ ∃ rest1, rest = '{' :: rest1
      · obtain ⟨rfl, rest1, rfl⟩ := hdollar
        simp [hasDollarBrace] at hnb
      · have hcond : ∀ (rest1 : List Char), c = '$' → rest = '{' :: rest1 → False :=
          fun rest1 h1 h2 => hdollar ⟨h1, rest1, h2⟩
        rw [expandAux.eq_4 props fuel c rest hcond]
        rw [ih rest (by rw [hasDollarBrace.eq_3 c rest hcond] at hnb; exact hnb)]

/-- C9: `expand` is exactly the single-pass substitution the
specification describes: decomposing the template (independently of the
field map) into literal text and `${ident}` holes and rendering each
hole as the map's value for the identifier or the empty string when
absent, with replaced text never rescanned; a template without a `${`
opener passes through unchanged; the specification's missing-key example
produces `"test-"`; and a substituted value that itself looks like a
placeholder is not re-expanded. -/
theorem c9_expand_single_pass :
    (∀ (template : String) (props : List (String × String)),
      expand template props = expand_spec template props) ∧
    (∀ (template : String) (props : List (String × String)),
      hasDollarBrace template.data = false → expand template props = template) ∧
    expand "${name}-${missing}" [("name", "test")] = "test-" ∧
    expand "${a}" [("a", "${b}"), ("b", "X")] = "${b}" := by
  refine ⟨fun template props => ?_, fun template props hnb => ?_, by decide, by decide⟩
  · unfold expand expand_spec
    rw [expandAux_eq_tokenize]
  · unfold expand
    rw [expandAux_no_brace props _ template.data hnb]

/-- Witness for the conditional part of C9: a template with no `${`
passes through `expand` unchanged. -/
theorem c9_expand_single_pass_witness :
    hasDollarBrace ("plain text".data) = false ∧
      expand "plain text" [("name", "test")] = "plain text" :=
  ⟨by decide, c9_expand_single_pass.2.1 "plain text" [("name", "test")] (by decide)⟩

/-- Witness for the conditional part of C10: a result property `b` with
an empty-string default, not extracted and not source-defaulted, is
reported missing. -/
theorem c10_empty_default_requires_input_witness :
    (⟨"b", "text", none, some ""⟩ : ResultProperty) ∈ missing_properties
      ⟨"s", "d", 0, [⟨"a", "A1", []⟩], ⟨"A10", [], none⟩, none, []⟩
      ⟨"f", [⟨"a", "text", none, none⟩, ⟨"b", "text", none, some ""⟩], "", ""⟩ :=
  c10_empty_default_requires_input.2
    ⟨"s", "d", 0, [⟨"a", "A1", []⟩], ⟨"A10", [], none⟩, none, []⟩
    ⟨"f", [⟨"a", "text", none, none⟩, ⟨"b", "text", none, some ""⟩], "", ""⟩
    ⟨"b", "text", none, some ""⟩
    (by decide) (by decide) (by decide) (by decide)


theorem tryMatch_length_le (ts : List RTok) (cs rest : List Char)
    (h : tryMatch ts cs = some rest) : rest.length ≤ cs.length := by
  induction ts generalizing cs with
  | nil =>
    simp [tryMatch] at h
    simp [h]
  | cons t ts ih =>
    cases t with
    | once a =>
      cases cs with
      | nil => simp [tryMatch] at h
      | cons c cs' =>
        simp only [tryMatch] at h
        by_cases hm : matchAtom a c
        · rw [if_pos hm] at h
          have := ih cs' h
          simp [List.length_cons]
          omega
        · rw [if_neg hm] at h; exact absurd h (by simp)
    | plus a =>
      simp only [tryMatch] at h
      by_cases hrun : (cs.takeWhile (matchAtom a)).isEmpty
      · rw [if_pos hrun] at h; exact absurd h (by simp)
      · rw [if_neg hrun] at h
        have := ih _ h
        calc rest.length ≤ (cs.drop (cs.takeWhile (matchAtom a)).length).length := this
          _ ≤ cs.length := by simp [List.length_drop]


theorem scanIdent_length (cs ident rest : List Char)
    (h : scanIdent cs = some (ident, rest)) : rest.length < cs.length := by
  induction cs generalizing ident with
  | nil => simp [scanIdent] at h
  | cons c cs' ih =>
    by_cases hc : c = '}'
    · subst hc
      simp [scanIdent] at h
      simp [h.2]
    · rw [show scanIdent (c :: cs') =
          (if isWordChar c then (scanIdent cs').map (fun p => (c :: p.1, p.2))
           else none) from by
        cases cs' <;> simp [scanIdent, hc]] at h
      by_cases hw : isWordChar c
      · rw [if_pos hw] at h
        cases h2 : scanIdent cs' with
        | none => simp [h2] at h
        | some p =>
          obtain ⟨p1, p2⟩ := p
          simp [h2] at h
          have := ih p1 (by rw [h2, h.2])
          simp [List.length_cons]
          omega
      · rw [if_neg hw] at h
        simp at h

end Excel2Erp
